import Mathlib

/-!
# Verification of the PDF outline extractor (`src/extractor.py`)

Shallow embedding of the heading classifier, title inferrer, outline builder and
document processor of `PDFStructureExtractor`.  Python strings are modelled as
Lean `String`s (lists of characters); the regex prefix patterns of the source are
modelled character by character (each pattern is deterministic: every repetition
`x+` / `x{4,}` is followed either by the end of the pattern or by a character
outside the repeated class, so greedy matching without backtracking is exact).
Character classes (`[A-Z]`, `\d`, `\s`, `str.lower`, `str.isupper`, ...) are
modelled over their ASCII ranges.  Font sizes (Python floats) are modelled as
rationals.
-/

set_option maxHeartbeats 1000000
set_option maxRecDepth 100000

namespace PDFExtract

/-- ASCII decimal digit, modelling the regex class `\d` = `[0-9]`. -/
def isDigitCh (c : Char) : Bool := 48 ≤ c.toNat && c.toNat ≤ 57

/-- ASCII uppercase letter, modelling the regex class `[A-Z]`. -/
def isUpperCh (c : Char) : Bool := 65 ≤ c.toNat && c.toNat ≤ 90

/-- ASCII lowercase letter, modelling the regex class `[a-z]`. -/
def isLowerCh (c : Char) : Bool := 97 ≤ c.toNat && c.toNat ≤ 122

/-- Whitespace, modelling Python `str.strip` / `str.split` / regex `\s`
(ASCII range: space, tab, newline, carriage return, vertical tab, form feed). -/
def isWS (c : Char) : Bool :=
  c = ' ' || c = '\t' || c = '\n' || c = '\r' || c = '\x0b' || c = '\x0c'

/-- `str.strip` on the character list: drop leading and trailing whitespace. -/
def stripList (l : List Char) : List Char :=
  ((l.dropWhile isWS).reverse.dropWhile isWS).reverse

/-- Python `str.strip()`. -/
def pyStrip (s : String) : String := ⟨stripList s.data⟩

/-- Helper for `wordCount`: count maximal runs of non-whitespace characters;
the boolean records whether we are currently inside a run. -/
def countWordsAux : Bool → List Char → Nat
  | _, [] => 0
  | inw, c :: cs =>
    if isWS c then countWordsAux false cs
    else (if inw then 0 else 1) + countWordsAux true cs

/-- `len(text.split())` in Python: the number of whitespace-delimited words. -/
def wordCount (s : String) : Nat := countWordsAux false s.data

/-- ASCII lowercasing of one character (model of `str.lower` per character). -/
def lowerCh (c : Char) : Char := if isUpperCh c then Char.ofNat (c.toNat + 32) else c

/-- Python `str.lower()` (ASCII model). -/
def pyLower (s : String) : String := ⟨s.data.map lowerCh⟩

/-- A cased character (ASCII model: a letter). -/
def isCasedCh (c : Char) : Bool := isLowerCh c || isUpperCh c

/-- Python `str.islower()`: at least one cased character and no uppercase one. -/
def pyIsLower (s : String) : Bool :=
  s.data.any isCasedCh && s.data.all (fun c => !isUpperCh c)

/-- Python `str.isupper()`: at least one cased character and no lowercase one. -/
def pyIsUpper (s : String) : Bool :=
  s.data.any isCasedCh && s.data.all (fun c => !isLowerCh c)

/-- Greedy `p+`: require one character satisfying `p`, then consume the maximal
run of such characters, returning the remainder. -/
def munch1 (p : Char → Bool) : List Char → Option (List Char)
  | [] => none
  | c :: cs => if p c then some (cs.dropWhile p) else none

/-- Consume one expected literal character, returning the remainder. -/
def afterCh (a : Char) : List Char → Option (List Char)
  | [] => none
  | c :: cs => if c = a then some cs else none

/-- Consume an expected literal character sequence, returning the remainder. -/
def dropLit : List Char → List Char → Option (List Char)
  | [], cs => some cs
  | _ :: _, [] => none
  | a :: as, c :: cs => if c = a then dropLit as cs else none

/-- Does the head of the list satisfy `p`? -/
def headSat (p : Char → Bool) : List Char → Bool
  | [] => false
  | c :: _ => p c

/-- H3 pattern `^\d+\.\d+\.\d+`. -/
def reDotted3 (cs : List Char) : Bool :=
  (((((munch1 isDigitCh cs).bind (afterCh '.')).bind (munch1 isDigitCh)).bind
    (afterCh '.')).bind (munch1 isDigitCh)).isSome

/-- H3 pattern `^\([0-9]+\)`. -/
def reParenInt (cs : List Char) : Bool :=
  (((afterCh '(' cs).bind (munch1 isDigitCh)).bind (afterCh ')')).isSome

/-- H2 pattern `^\d+\.\d+`. -/
def reDotted2 (cs : List Char) : Bool :=
  (((munch1 isDigitCh cs).bind (afterCh '.')).bind (munch1 isDigitCh)).isSome

/-- H2 pattern `^\([a-z]\)`. -/
def reParenLetter : List Char → Bool
  | a :: b :: c :: _ => a = '(' && isLowerCh b && c = ')'
  | _ => false

/-- H2 pattern `^[a-z]\)`. -/
def reLetterParen : List Char → Bool
  | a :: b :: _ => isLowerCh a && b = ')'
  | _ => false

/-- The class `[A-Z\s]`. -/
def isUpperOrWS (c : Char) : Bool := isUpperCh c || isWS c

/-- First alternative of the first H1 pattern: `^[A-Z][A-Z\s]{4,}`. -/
def reCapsRun : List Char → Bool
  | [] => false
  | c :: rest => isUpperCh c && decide (4 ≤ (rest.takeWhile isUpperOrWS).length)

/-- A Roman numeral character `[IVXLCDM]`. -/
def isRomanCh (c : Char) : Bool :=
  c = 'I' || c = 'V' || c = 'X' || c = 'L' || c = 'C' || c = 'D' || c = 'M'

/-- Second alternative of the first H1 pattern: `^[IVXLCDM]+\s`. -/
def reRomanWS (cs : List Char) : Bool :=
  match munch1 isRomanCh cs with
  | some r => headSat isWS r
  | none => false

/-- Third alternative of the first H1 pattern: `^[1-9]\s`. -/
def reDigitWS : List Char → Bool
  | c :: d :: _ => (49 ≤ c.toNat && c.toNat ≤ 57) && isWS d
  | _ => false

/-- First H1 pattern `^([A-Z][A-Z\s]{4,}|[IVXLCDM]+\s|[1-9]\s)`. -/
def reH1Alt (cs : List Char) : Bool := reCapsRun cs || reRomanWS cs || reDigitWS cs

/-- Second H1 pattern `^Chapter\s+\d+`. -/
def reChapter (cs : List Char) : Bool :=
  (((dropLit "Chapter".data cs).bind (munch1 isWS)).bind (munch1 isDigitCh)).isSome

/-- The class `[A-Z0-9]`. -/
def isUpperOrDigit (c : Char) : Bool := isUpperCh c || isDigitCh c

/-- Third H1 pattern `^Appendix\s+[A-Z0-9]+`. -/
def reAppendix (cs : List Char) : Bool :=
  (((dropLit "Appendix".data cs).bind (munch1 isWS)).bind (munch1 isUpperOrDigit)).isSome

/-- The `heading_keywords` set of the source. -/
def heading_keywords : List String :=
  ["introduction", "summary", "conclusion", "overview", "abstract", "references",
   "appendix", "contents", "table of contents", "acknowledgements"]

/-- `PDFStructureExtractor.is_heading`: strip the text, reject long texts
(more than 20 words or more than 150 characters), then try the H3, H2 and H1
pattern lists in order, and finally the keyword / all-uppercase fallback. -/
def is_heading (text : String) : Option String :=
  let t := pyStrip text
  if wordCount t > 20 ∨ t.length > 150 then none
  else if reDotted3 t.data || reParenInt t.data then some "H3"
  else if reDotted2 t.data || reParenLetter t.data || reLetterParen t.data then some "H2"
  else if reH1Alt t.data || reChapter t.data || reAppendix t.data then some "H1"
  else if heading_keywords.contains (pyLower t) || pyIsUpper t then some "H1"
  else none

/-- A text span as yielded by the acquisition adapter: raw text plus font size
(`span["text"]`, `span["size"]`; the size, a Python float, is modelled as ℚ). -/
structure Span where
  text : String
  size : ℚ
deriving DecidableEq

/-- A line is the ordered list of its spans (`line["spans"]`, default `[]`). -/
abbrev Line := List Span

/-- A block is the ordered list of its lines (`block["lines"]`, default `[]`;
a block without a `"lines"` key is modelled as a block with no lines). -/
abbrev Block := List Line

/-- A page is the ordered list of its blocks (`page.get_text("dict")["blocks"]`). -/
abbrev Page := List Block

/-- `" ".join([span["text"].strip() for span in line])`. -/
def joinSpans (l : Line) : String :=
  String.intercalate " " (l.map (fun s => pyStrip s.text))

/-- The joined, stripped text of a line (`full_line` in `extract_outline`). -/
def lineText (l : Line) : String := pyStrip (joinSpans l)

/-- One outline entry `{"level": ..., "text": ..., "page": ...}` (page 1-based). -/
structure OutlineEntry where
  level : String
  text : String
  page : Nat
deriving DecidableEq

/-- The body of `extract_outline`'s inner loops for one page: process the lines
in order, threading the `seen` set of dedup keys `(full_line.lower(), page_num)`
and returning the entries appended for this page together with the final `seen`. -/
def procLines (pn : Nat) : List Line → List (String × Nat) → List OutlineEntry × List (String × Nat)
  | [], seen => ([], seen)
  | l :: ls, seen =>
    let t := lineText l
    if t = "" then procLines pn ls seen
    else
      match is_heading t with
      | none => procLines pn ls seen
      | some lv =>
        if (pyLower t, pn) ∈ seen then procLines pn ls seen
        else
          let rest := procLines pn ls ((pyLower t, pn) :: seen)
          (⟨lv, t, pn + 1⟩ :: rest.1, rest.2)

/-- The page loop of `extract_outline`: pages in order, starting at index `k`,
threading the `seen` set across pages. A page's lines are its blocks' lines in
block order (`for block in blocks: for line in block.get("lines", [])`). -/
def procPages : Nat → List Page → List (String × Nat) → List OutlineEntry
  | _, [], _ => []
  | k, p :: ps, seen =>
    let r := procLines k p.flatten seen
    r.1 ++ procPages (k + 1) ps r.2

/-- `PDFStructureExtractor.extract_outline`. -/
def extract_outline (doc : List Page) : List OutlineEntry := procPages 0 doc []

/-- A title candidate `(txt, s["size"], page_num)`. -/
structure Cand where
  text : String
  size : ℚ
  page : Nat
deriving DecidableEq

/-- The candidate filter of `extract_title`: keep a span whose stripped text
has length strictly between 10 and 150 and is not entirely lowercase. -/
def spanCand (pn : Nat) (sp : Span) : Option Cand :=
  let txt := pyStrip sp.text
  if 10 < txt.length ∧ txt.length < 150 ∧ pyIsLower txt = false then some ⟨txt, sp.size, pn⟩
  else none

/-- All title candidates of one page (blocks, lines, spans in order). -/
def pageCands (pn : Nat) (p : Page) : List Cand :=
  p.flatMap (fun b => b.flatMap (fun l => l.filterMap (spanCand pn)))

/-- Pair every element with its index, starting at `n` (the `range` loop). -/
def withIdx : Nat → List α → List (Nat × α)
  | _, [] => []
  | n, x :: xs => (n, x) :: withIdx (n + 1) xs

/-- The candidate list of `extract_title`: spans of the first
`min(2, doc.page_count)` pages, in reading order. -/
def titleCandidates (doc : List Page) : List Cand :=
  (withIdx 0 (doc.take 2)).flatMap (fun pr => pageCands pr.1 pr.2)

/-- Strict order on sort keys `(-size, page_num)`: `a` sorts strictly before `b`. -/
def candLt (a b : Cand) : Prop := b.size < a.size ∨ (a.size = b.size ∧ a.page < b.page)

/-- Non-strict order on sort keys `(-size, page_num)`. -/
def candLe (a b : Cand) : Prop := b.size < a.size ∨ (a.size = b.size ∧ a.page ≤ b.page)

instance (a b : Cand) : Decidable (candLt a b) := by unfold candLt; infer_instance

instance (a b : Cand) : Decidable (candLe a b) := by unfold candLe; infer_instance

/-- Stable insertion into a key-sorted list: `x` goes before the first element
whose key is not strictly smaller, hence after all earlier elements of equal key. -/
def insertCand (x : Cand) : List Cand → List Cand
  | [] => [x]
  | y :: ys => if candLt y x then y :: insertCand x ys else x :: y :: ys

/-- Stable sort by the key `(-size, page_num)`, modelling
`candidates.sort(key=lambda x: (-x[1], x[2]))` (Python's sort is stable). -/
def sortCands : List Cand → List Cand
  | [] => []
  | x :: xs => insertCand x (sortCands xs)

/-- `PDFStructureExtractor.extract_title`: sort the candidates and return the
text of the first, or `""` when there are none. -/
def extract_title (doc : List Page) : String :=
  match sortCands (titleCandidates doc) with
  | [] => ""
  | c :: _ => c.text

/-- First element of `b :: l` attaining the minimal key: fold from the left,
replacing the current best only on a strictly smaller key.  This is the
specification-side description of the head of a stable sort. -/
def firstMinCand (b : Cand) : List Cand → Cand
  | [] => b
  | x :: xs => if candLt x b then firstMinCand x xs else firstMinCand b xs

/-- A span occurs (in some block, in some line) on a page. -/
def SpanInPage (sp : Span) (page : Page) : Prop := ∃ b ∈ page, ∃ l ∈ b, sp ∈ l

instance (sp : Span) (page : Page) : Decidable (SpanInPage sp page) := by
  unfold SpanInPage; infer_instance

/-- Specification-side description of the title candidates, following the spec:
a candidate records the stripped text, font size and page index of a span of one
of the first two pages whose stripped text has length strictly between 10 and
150 and is not entirely lowercase. -/
def TitleCandidateSpec (doc : List Page) (c : Cand) : Prop :=
  ∃ pn page sp, pn < 2 ∧ doc.get? pn = some page ∧ SpanInPage sp page ∧
    10 < (pyStrip sp.text).length ∧ (pyStrip sp.text).length < 150 ∧
    pyIsLower (pyStrip sp.text) = false ∧ c = ⟨pyStrip sp.text, sp.size, pn⟩

/-- The result record `{"title": ..., "outline": ...}` of `extract_structure`. -/
structure DocumentStructure where
  title : String
  outline : List OutlineEntry
deriving DecidableEq

/-- `pathlib.PurePath.stem` on a file name: the name with its suffix removed,
where the suffix is `name[i:]` for the last `'.'` at position `i` with
`0 < i < len(name) - 1`, and absent otherwise. -/
def pathStem (name : String) : String :=
  let cs := name.data
  match cs.reverse.findIdx? (· = '.') with
  | some j =>
    let i := cs.length - 1 - j
    if 0 < i ∧ i < cs.length - 1 then ⟨cs.take i⟩ else name
  | none => name

/-- `PDFStructureExtractor.extract_structure`: the outcome of `fitz.open` (the
fallible step; title and outline extraction are total in this model) is either
a document or an exception.  On an exception the degraded result uses the file
name's stem and an empty outline. -/
def extract_structure (opened : Except String (List Page)) (fileName : String) :
    DocumentStructure :=
  match opened with
  | .ok doc => ⟨extract_title doc, extract_outline doc⟩
  | .error _ => ⟨pathStem fileName, []⟩

/-- A page with a single block holding a single one-span line. -/
def onePage (txt : String) (sz : ℚ) : Page := [[[⟨txt, sz⟩]]]

/-- Scenario document: "CONCLUSION" on pages 4 and 9 (indices 3 and 8). -/
def docConclTwoPages : List Page :=
  [[], [], [], onePage "CONCLUSION" 12, [], [], [], [], onePage "CONCLUSION" 12]

/-- Scenario document: "CONCLUSION" twice on page 4 (index 3), the second
occurrence differing only in case. -/
def docConclSamePage : List Page :=
  [[], [], [], [[[⟨"CONCLUSION", 12⟩], [⟨"Conclusion", 12⟩]]]]

/-- Scenario document: "1.2 Background" on page 3 (index 2). -/
def docBackground : List Page := [[], [], onePage "1.2 Background" 11]

/-- Witness document for the title inferrer: one prominent mixed-case span and
one lowercase body span on the only page. -/
def docTitleDemo : List Page :=
  [[[[⟨"A Document About Widgets", 14⟩], [⟨"some lowercase body text here", 10⟩]]]]

/-- Witness document for stable tie-breaking: two candidates with the same font
size on the same page. -/
def docTieDemo : List Page :=
  [[[[⟨"First Candidate Title", 12⟩], [⟨"Second Candidate Title", 12⟩]]]]

/-- Witness document for uncased title candidates: a span with no cased
characters at all. -/
def docUncasedDemo : List Page := [onePage "123-456-7890!" 12]

/-- Counterexample text for the length gate: a heading padded with trailing
whitespace past 150 characters. -/
def cexPadded : String := "INTRODUCTION" ++ ⟨List.replicate 139 ' '⟩

/-- Counterexample text for the H3 claim: an H3-pattern prefix followed by more
than 150 characters. -/
def cexLongDotted : String := "1.1.1 " ++ ⟨List.replicate 150 'a'⟩

/-- Counterexample text for the all-caps claim: 151 uppercase letters. -/
def cexLongCaps : String := ⟨List.replicate 151 'A'⟩

/-- Witness text for the length gate: 151 lowercase letters. -/
def cexLongLower : String := ⟨List.replicate 151 'a'⟩


/-! ## Helper lemmas about stripping and character classes -/

theorem mem_of_mem_dropWhile {p : Char → Bool} {c : Char} {l : List Char}
    (h : c ∈ l.dropWhile p) : c ∈ l := by
  have hsplit : l.takeWhile p ++ l.dropWhile p = l := List.takeWhile_append_dropWhile p l
  rw [← hsplit]
  exact List.mem_append_right _ h

theorem mem_dropWhile_of_not {p : Char → Bool} {c : Char} (hc : p c = false) :
    ∀ {l : List Char}, c ∈ l → c ∈ l.dropWhile p := by
  intro l
  induction l with
  | nil => intro h; exact absurd h (List.not_mem_nil c)
  | cons x xs ih =>
    intro h
    rw [List.dropWhile_cons]
    by_cases hx : p x = true
    · rw [if_pos hx]
      rcases List.mem_cons.mp h with rfl | h'
      · rw [hc] at hx; cases hx
      · exact ih h'
    · rw [if_neg hx]; exact h

theorem dropWhile_head_not {p : Char → Bool} :
    ∀ {l : List Char} {c : Char} {r : List Char}, l.dropWhile p = c :: r → p c = false := by
  intro l
  induction l with
  | nil => intro c r h; simp [List.dropWhile] at h
  | cons x xs ih =>
    intro c r h
    rw [List.dropWhile_cons] at h
    by_cases hx : p x = true
    · rw [if_pos hx] at h; exact ih h
    · rw [if_neg hx] at h
      injection h with h1 _
      subst h1
      simpa using hx

theorem mem_of_mem_stripList {c : Char} {l : List Char} (h : c ∈ stripList l) : c ∈ l := by
  unfold stripList at h
  rw [List.mem_reverse] at h
  have h1 := mem_of_mem_dropWhile h
  rw [List.mem_reverse] at h1
  exact mem_of_mem_dropWhile h1

theorem mem_stripList_of_not_ws {c : Char} {l : List Char} (hc : isWS c = false)
    (h : c ∈ l) : c ∈ stripList l := by
  unfold stripList
  rw [List.mem_reverse]
  exact mem_dropWhile_of_not hc (by rw [List.mem_reverse]; exact mem_dropWhile_of_not hc h)

theorem stripList_head_not_ws {l : List Char} {c : Char} {r : List Char}
    (h : stripList l = c :: r) : isWS c = false := by
  unfold stripList at h
  set m := l.dropWhile isWS with hm
  have hsplit : (m.reverse.takeWhile isWS) ++ (m.reverse.dropWhile isWS) = m.reverse :=
    List.takeWhile_append_dropWhile isWS m.reverse
  have hdecomp : m = (m.reverse.dropWhile isWS).reverse ++ (m.reverse.takeWhile isWS).reverse := by
    calc m = m.reverse.reverse := (List.reverse_reverse m).symm
      _ = ((m.reverse.takeWhile isWS) ++ (m.reverse.dropWhile isWS)).reverse := by rw [hsplit]
      _ = (m.reverse.dropWhile isWS).reverse ++ (m.reverse.takeWhile isWS).reverse :=
          List.reverse_append _ _
  rw [h] at hdecomp
  have hcons : l.dropWhile isWS = c :: (r ++ (m.reverse.takeWhile isWS).reverse) := by
    rw [← hm]; simpa using hdecomp
  exact dropWhile_head_not hcons

theorem stripList_length_le (l : List Char) : (stripList l).length ≤ l.length := by
  unfold stripList
  rw [List.length_reverse]
  calc ((l.dropWhile isWS).reverse.dropWhile isWS).length
      ≤ (l.dropWhile isWS).reverse.length := (List.dropWhile_suffix isWS).sublist.length_le
    _ = (l.dropWhile isWS).length := List.length_reverse _
    _ ≤ l.length := (List.dropWhile_suffix isWS).sublist.length_le

theorem toNat_le_of_ws {c : Char} (h : isWS c = true) : c.toNat ≤ 32 := by
  simp [isWS] at h
  rcases h with ((((e | e) | e) | e) | e) | e <;> subst e <;> decide

theorem not_ws_of_upper {c : Char} (h : isUpperCh c = true) : isWS c = false := by
  cases hws : isWS c
  · rfl
  · have h1 := toNat_le_of_ws hws
    simp [isUpperCh] at h
    omega

theorem not_digit_of_upper {c : Char} (h : isUpperCh c = true) : isDigitCh c = false := by
  simp [isUpperCh] at h
  simp [isDigitCh]
  omega

theorem not_lower_of_upper {c : Char} (h : isUpperCh c = true) : isLowerCh c = false := by
  simp [isUpperCh] at h
  simp [isLowerCh]
  omega

theorem not_digit_of_lower {c : Char} (h : isLowerCh c = true) : isDigitCh c = false := by
  simp [isLowerCh] at h
  simp [isDigitCh]
  omega

theorem ne_lparen_of_upper {c : Char} (h : isUpperCh c = true) : c ≠ '(' := by
  intro e; subst e; exact absurd h (by decide)

theorem ne_lparen_of_lower {c : Char} (h : isLowerCh c = true) : c ≠ '(' := by
  intro e; subst e; exact absurd h (by decide)

theorem ne_lparen_of_digit {c : Char} (h : isDigitCh c = true) : c ≠ '(' := by
  intro e; subst e; exact absurd h (by decide)

/-! ## Helper lemmas about the pattern matchers -/

theorem reDotted3_cons_false {c : Char} {r : List Char} (h : isDigitCh c = false) :
    reDotted3 (c :: r) = false := by
  simp [reDotted3, munch1, h]

theorem reDotted2_cons_false {c : Char} {r : List Char} (h : isDigitCh c = false) :
    reDotted2 (c :: r) = false := by
  simp [reDotted2, munch1, h]

theorem reParenInt_cons_false {c : Char} {r : List Char} (h : c ≠ '(') :
    reParenInt (c :: r) = false := by
  simp [reParenInt, afterCh, h]

theorem reParenInt_paren_nondigit {b : Char} {r : List Char} (hb : isDigitCh b = false) :
    reParenInt ('(' :: b :: r) = false := by
  simp [reParenInt, afterCh, munch1, hb]

theorem reDotted2_head_digit {cs : List Char} (h : reDotted2 cs = true) :
    ∃ c r, cs = c :: r ∧ isDigitCh c = true := by
  cases cs with
  | nil => simp [reDotted2, munch1] at h
  | cons c r =>
    cases hc : isDigitCh c
    · rw [reDotted2_cons_false hc] at h; cases h
    · exact ⟨c, r, rfl, hc⟩

theorem reParenLetter_cons_false {c : Char} {r : List Char} (h : c ≠ '(') :
    reParenLetter (c :: r) = false := by
  match r with
  | [] => rfl
  | [_] => rfl
  | b :: d :: t => simp [reParenLetter, h]

theorem reParenLetter_head_paren {cs : List Char} (h : reParenLetter cs = true) :
    ∃ b r, cs = '(' :: b :: ')' :: r ∧ isLowerCh b = true := by
  match cs with
  | [] => cases h
  | [_] => cases h
  | [_, _] => cases h
  | a :: b :: c :: r =>
    simp only [reParenLetter, Bool.and_eq_true, decide_eq_true_eq] at h
    obtain ⟨⟨ha, hb⟩, hc⟩ := h
    subst ha; subst hc
    exact ⟨b, r, rfl, hb⟩

theorem reLetterParen_cons_false {c : Char} {r : List Char} (h : isLowerCh c = false) :
    reLetterParen (c :: r) = false := by
  match r with
  | [] => rfl
  | b :: t => simp [reLetterParen, h]

theorem reLetterParen_head_lower {cs : List Char} (h : reLetterParen cs = true) :
    ∃ c r, cs = c :: r ∧ isLowerCh c = true := by
  match cs with
  | [] => cases h
  | [c] => cases h
  | c :: b :: r =>
    simp only [reLetterParen, Bool.and_eq_true] at h
    exact ⟨c, b :: r, rfl, h.1⟩

/-! ## Classifier claims -/

/-- Claim C4 (amended): for every line text whose *trimmed* form is longer than
150 characters or contains more than 20 whitespace-delimited words, `is_heading`
returns no heading level, regardless of any pattern or keyword in the text.
(The classifier strips the text before measuring it, so leading/trailing
whitespace does not count towards the 150-character limit.) -/
theorem is_heading_gate_trimmed (t : String)
    (h : 150 < (pyStrip t).length ∨ 20 < wordCount (pyStrip t)) :
    is_heading t = none := by
  simp only [is_heading]
  rw [if_pos h.symm]

/-- Witness for `is_heading_gate_trimmed` at a 151-character lowercase text. -/
theorem is_heading_gate_trimmed_witness :
    150 < (pyStrip cexLongLower).length ∧ is_heading cexLongLower = none :=
  ⟨by decide, is_heading_gate_trimmed cexLongLower (Or.inl (by decide))⟩

/-- Counterexample to claim C4 as stated: a line text of raw length 151 (a
heading padded with trailing spaces) for which `is_heading` still returns H1,
because the classifier measures the stripped text. -/
theorem is_heading_gate_cex :
    cexPadded.length > 150 ∧ is_heading cexPadded = some "H1" :=
  ⟨by decide, by decide⟩

/-- Claim C5 (amended): for every line text whose trimmed form passes the
length/word gate (at most 150 characters and at most 20 words) and matches
`^\d+\.\d+\.\d+` or `^\([0-9]+\)`, `is_heading` returns H3 — the H3 patterns
are checked before every H2 and H1 pattern. -/
theorem is_heading_h3_of_pattern (t : String)
    (hw : wordCount (pyStrip t) ≤ 20) (hl : (pyStrip t).length ≤ 150)
    (hm : reDotted3 (pyStrip t).data = true ∨ reParenInt (pyStrip t).data = true) :
    is_heading t = some "H3" := by
  have hgate : ¬(wordCount (pyStrip t) > 20 ∨ (pyStrip t).length > 150) := by omega
  have h3 : (reDotted3 (pyStrip t).data || reParenInt (pyStrip t).data) = true := by
    rcases hm with h | h <;> simp [h]
  simp only [is_heading]
  rw [if_neg hgate, if_pos h3]

/-- Witness for `is_heading_h3_of_pattern` at "1.1.1 Overview". -/
theorem is_heading_h3_of_pattern_witness :
    reDotted3 (pyStrip "1.1.1 Overview").data = true ∧
      is_heading "1.1.1 Overview" = some "H3" :=
  ⟨by decide,
    is_heading_h3_of_pattern "1.1.1 Overview" (by decide) (by decide) (Or.inl (by decide))⟩

/-- Counterexample to claim C5 as stated: a text matching `^\d+\.\d+\.\d+` but
longer than 150 characters, for which `is_heading` returns nothing (the
length/word gate takes precedence over every pattern). -/
theorem is_heading_h3_cex :
    reDotted3 cexLongDotted.data = true ∧ is_heading cexLongDotted = none :=
  ⟨by decide, by decide⟩

/-- Claim C6: for every line text (not rejected by the length/word gate, which
measures the trimmed text) whose trimmed form matches `^\d+\.\d+` but not
`^\d+\.\d+\.\d+`, or matches `^\([a-z]\)` or `^[a-z]\)`, `is_heading` returns
H2; and the line "1.2 Background" on page 3 yields the outline entry
`{level: H2, text: "1.2 Background", page: 3}`. -/
theorem is_heading_h2_of_pattern :
    (∀ t : String, wordCount (pyStrip t) ≤ 20 → (pyStrip t).length ≤ 150 →
      ((reDotted2 (pyStrip t).data = true ∧ reDotted3 (pyStrip t).data = false) ∨
        reParenLetter (pyStrip t).data = true ∨ reLetterParen (pyStrip t).data = true) →
      is_heading t = some "H2") ∧
    extract_outline docBackground = [⟨"H2", "1.2 Background", 3⟩] := by
  constructor
  · intro t hw hl hm
    have hgate : ¬(wordCount (pyStrip t) > 20 ∨ (pyStrip t).length > 150) := by omega
    have h3 : (reDotted3 (pyStrip t).data || reParenInt (pyStrip t).data) = false := by
      rcases hm with ⟨h2d, h3f⟩ | hp | hlp
      · obtain ⟨c, r, hcs, hdig⟩ := reDotted2_head_digit h2d
        have hpi : reParenInt (pyStrip t).data = false := by
          rw [hcs]; exact reParenInt_cons_false (ne_lparen_of_digit hdig)
        simp [h3f, hpi]
      · obtain ⟨b, r, hcs, hb⟩ := reParenLetter_head_paren hp
        have hd3 : reDotted3 (pyStrip t).data = false := by
          rw [hcs]; exact reDotted3_cons_false (by decide)
        have hpi : reParenInt (pyStrip t).data = false := by
          rw [hcs]; exact reParenInt_paren_nondigit (not_digit_of_lower hb)
        simp [hd3, hpi]
      · obtain ⟨c, r, hcs, hc⟩ := reLetterParen_head_lower hlp
        have hd3 : reDotted3 (pyStrip t).data = false := by
          rw [hcs]; exact reDotted3_cons_false (not_digit_of_lower hc)
        have hpi : reParenInt (pyStrip t).data = false := by
          rw [hcs]; exact reParenInt_cons_false (ne_lparen_of_lower hc)
        simp [hd3, hpi]
    have h2 : (reDotted2 (pyStrip t).data || reParenLetter (pyStrip t).data ||
        reLetterParen (pyStrip t).data) = true := by
      rcases hm with ⟨h2d, _⟩ | hp | hlp
      · simp [h2d]
      · simp [hp]
      · simp [hlp]
    simp only [is_heading]
    rw [if_neg hgate, if_neg (by simp [h3]), if_pos h2]
  · decide

/-- Witness for `is_heading_h2_of_pattern` at "1.2 Background". -/
theorem is_heading_h2_of_pattern_witness :
    is_heading "1.2 Background" = some "H2" :=
  is_heading_h2_of_pattern.1 "1.2 Background" (by decide) (by decide)
    (Or.inl ⟨by decide, by decide⟩)

/-- Claim C7 (amended): for every line text consisting purely of uppercase
letters and spaces, containing at least one letter, with length at least 5 and
at most 150 and whose trimmed form has at most 20 whitespace-delimited words,
`is_heading` returns H1 (via the all-caps-run pattern or the entirely-uppercase
fallback). -/
theorem is_heading_h1_of_caps (t : String)
    (hchars : ∀ c ∈ t.data, c = ' ' ∨ isUpperCh c = true)
    (hletter : ∃ c ∈ t.data, isUpperCh c = true)
    (_hlen5 : 5 ≤ t.length)
    (hlen : t.length ≤ 150)
    (hw : wordCount (pyStrip t) ≤ 20) :
    is_heading t = some "H1" := by
  obtain ⟨c0, hc0m, hc0u⟩ := hletter
  have hc0s : c0 ∈ stripList t.data := mem_stripList_of_not_ws (not_ws_of_upper hc0u) hc0m
  have hlstrip : (pyStrip t).length ≤ 150 :=
    le_trans (stripList_length_le t.data) hlen
  have hgate : ¬(wordCount (pyStrip t) > 20 ∨ (pyStrip t).length > 150) := by omega
  obtain ⟨c, r, hcr⟩ : ∃ c r, stripList t.data = c :: r := by
    cases hsl : stripList t.data with
    | nil => rw [hsl] at hc0s; exact absurd hc0s (List.not_mem_nil c0)
    | cons c r => exact ⟨c, r, rfl⟩
  have hcup : isUpperCh c = true := by
    have hcm : c ∈ t.data := mem_of_mem_stripList (hcr ▸ List.mem_cons_self c r)
    rcases hchars c hcm with rfl | h
    · have hws := stripList_head_not_ws hcr
      simp [isWS] at hws
    · exact h
  have hdata : (pyStrip t).data = c :: r := hcr
  have h3 : (reDotted3 (pyStrip t).data || reParenInt (pyStrip t).data) = false := by
    rw [hdata, reDotted3_cons_false (not_digit_of_upper hcup),
      reParenInt_cons_false (ne_lparen_of_upper hcup)]
    rfl
  have h2 : (reDotted2 (pyStrip t).data || reParenLetter (pyStrip t).data ||
      reLetterParen (pyStrip t).data) = false := by
    rw [hdata, reDotted2_cons_false (not_digit_of_upper hcup),
      reParenLetter_cons_false (ne_lparen_of_upper hcup),
      reLetterParen_cons_false (not_lower_of_upper hcup)]
    rfl
  have hup : pyIsUpper (pyStrip t) = true := by
    have hany : (pyStrip t).data.any isCasedCh = true :=
      List.any_eq_true.mpr ⟨c0, hc0s, by simp [isCasedCh, hc0u]⟩
    have hall : (pyStrip t).data.all (fun c => !isLowerCh c) = true := by
      refine List.all_eq_true.mpr ?_
      intro x hx
      have hxm : x ∈ t.data := mem_of_mem_stripList hx
      rcases hchars x hxm with rfl | h
      · decide
      · simp [not_lower_of_upper h]
    simp [pyIsUpper, hany, hall]
  simp only [is_heading]
  rw [if_neg hgate, if_neg (by simp [h3]), if_neg (by simp [h2])]
  by_cases hA : (reH1Alt (pyStrip t).data || reChapter (pyStrip t).data ||
      reAppendix (pyStrip t).data) = true
  · rw [if_pos hA]
  · rw [if_neg hA, if_pos (by simp [hup])]

/-- Witness for `is_heading_h1_of_caps` at "SYSTEM OVERVIEW". -/
theorem is_heading_h1_of_caps_witness :
    is_heading "SYSTEM OVERVIEW" = some "H1" :=
  is_heading_h1_of_caps "SYSTEM OVERVIEW" (by decide) (by decide) (by decide) (by decide)
    (by decide)

/-- Counterexample to claim C7 as stated: a text of 151 uppercase letters
(purely uppercase letters and spaces, length at least 5) for which `is_heading`
returns nothing, because the length/word gate rejects it. -/
theorem is_heading_h1_caps_cex :
    (∀ c ∈ cexLongCaps.data, c = ' ' ∨ isUpperCh c = true) ∧
      5 ≤ cexLongCaps.length ∧ is_heading cexLongCaps = none :=
  ⟨by decide, by decide, by decide⟩

/-! ## Outline builder lemmas -/

theorem procLines_nil (pn : Nat) (seen : List (String × Nat)) :
    procLines pn [] seen = ([], seen) := rfl

theorem procLines_cons_skip_empty {pn : Nat} {l : Line} {ls : List Line}
    {seen : List (String × Nat)} (ht : lineText l = "") :
    procLines pn (l :: ls) seen = procLines pn ls seen := by
  simp [procLines, ht]

theorem procLines_cons_skip_none {pn : Nat} {l : Line} {ls : List Line}
    {seen : List (String × Nat)} (ht : ¬lineText l = "")
    (hh : is_heading (lineText l) = none) :
    procLines pn (l :: ls) seen = procLines pn ls seen := by
  simp [procLines, ht, hh]

theorem procLines_cons_skip_seen {pn : Nat} {l : Line} {ls : List Line}
    {seen : List (String × Nat)} {lv : String} (ht : ¬lineText l = "")
    (hh : is_heading (lineText l) = some lv) (hk : (pyLower (lineText l), pn) ∈ seen) :
    procLines pn (l :: ls) seen = procLines pn ls seen := by
  simp [procLines, ht, hh, hk]

theorem procLines_cons_emit {pn : Nat} {l : Line} {ls : List Line}
    {seen : List (String × Nat)} {lv : String} (ht : ¬lineText l = "")
    (hh : is_heading (lineText l) = some lv) (hk : (pyLower (lineText l), pn) ∉ seen) :
    procLines pn (l :: ls) seen =
      (⟨lv, lineText l, pn + 1⟩ :: (procLines pn ls ((pyLower (lineText l), pn) :: seen)).1,
        (procLines pn ls ((pyLower (lineText l), pn) :: seen)).2) := by
  simp [procLines, ht, hh, hk]

theorem procLines_page {pn : Nat} :
    ∀ {ls : List Line} {seen : List (String × Nat)} {e : OutlineEntry},
      e ∈ (procLines pn ls seen).1 → e.page = pn + 1 := by
  intro ls
  induction ls with
  | nil => intro seen e h; simp [procLines_nil] at h
  | cons l ls ih =>
    intro seen e h
    by_cases ht : lineText l = ""
    · rw [procLines_cons_skip_empty ht] at h; exact ih h
    · cases hh : is_heading (lineText l) with
      | none => rw [procLines_cons_skip_none ht hh] at h; exact ih h
      | some lv =>
        by_cases hk : (pyLower (lineText l), pn) ∈ seen
        · rw [procLines_cons_skip_seen ht hh hk] at h; exact ih h
        · rw [procLines_cons_emit ht hh hk] at h
          rcases List.mem_cons.mp h with rfl | h'
          · rfl
          · exact ih h'

theorem procLines_key_mem {pn : Nat} :
    ∀ {ls : List Line} {seen : List (String × Nat)} {e : OutlineEntry},
      e ∈ (procLines pn ls seen).1 → (pyLower e.text, pn) ∉ seen := by
  intro ls
  induction ls with
  | nil => intro seen e h; simp [procLines_nil] at h
  | cons l ls ih =>
    intro seen e h
    by_cases ht : lineText l = ""
    · rw [procLines_cons_skip_empty ht] at h; exact ih h
    · cases hh : is_heading (lineText l) with
      | none => rw [procLines_cons_skip_none ht hh] at h; exact ih h
      | some lv =>
        by_cases hk : (pyLower (lineText l), pn) ∈ seen
        · rw [procLines_cons_skip_seen ht hh hk] at h; exact ih h
        · rw [procLines_cons_emit ht hh hk] at h
          rcases List.mem_cons.mp h with rfl | h'
          · exact hk
          · intro hmem
            exact ih h' (List.mem_cons_of_mem _ hmem)

theorem procLines_distinct {pn : Nat} :
    ∀ {ls : List Line} {seen : List (String × Nat)},
      List.Pairwise (fun a b => pyLower a.text ≠ pyLower b.text) (procLines pn ls seen).1 := by
  intro ls
  induction ls with
  | nil => intro seen; simp [procLines_nil]
  | cons l ls ih =>
    intro seen
    by_cases ht : lineText l = ""
    · rw [procLines_cons_skip_empty ht]; exact ih
    · cases hh : is_heading (lineText l) with
      | none => rw [procLines_cons_skip_none ht hh]; exact ih
      | some lv =>
        by_cases hk : (pyLower (lineText l), pn) ∈ seen
        · rw [procLines_cons_skip_seen ht hh hk]; exact ih
        · rw [procLines_cons_emit ht hh hk]
          refine List.Pairwise.cons ?_ ih
          intro b hb he
          have h1 := procLines_key_mem hb
          exact h1 (by rw [← he]; exact List.mem_cons_self _ _)

theorem procLines_sublist {pn : Nat} :
    ∀ {ls : List Line} {seen : List (String × Nat)},
      List.Sublist ((procLines pn ls seen).1.map (fun e => e.text)) (ls.map lineText) := by
  intro ls
  induction ls with
  | nil => intro seen; simp [procLines_nil]
  | cons l ls ih =>
    intro seen
    by_cases ht : lineText l = ""
    · rw [procLines_cons_skip_empty ht]; exact List.Sublist.cons _ ih
    · cases hh : is_heading (lineText l) with
      | none => rw [procLines_cons_skip_none ht hh]; exact List.Sublist.cons _ ih
      | some lv =>
        by_cases hk : (pyLower (lineText l), pn) ∈ seen
        · rw [procLines_cons_skip_seen ht hh hk]; exact List.Sublist.cons _ ih
        · rw [procLines_cons_emit ht hh hk]
          exact List.Sublist.cons₂ _ ih

theorem procPages_cons (k : Nat) (p : Page) (ps : List Page) (seen : List (String × Nat)) :
    procPages k (p :: ps) seen =
      (procLines k p.flatten seen).1 ++ procPages (k + 1) ps (procLines k p.flatten seen).2 := rfl

theorem procPages_page_ge :
    ∀ {ps : List Page} {k : Nat} {seen : List (String × Nat)} {e : OutlineEntry},
      e ∈ procPages k ps seen → k + 1 ≤ e.page := by
  intro ps
  induction ps with
  | nil => intro k seen e h; simp [procPages] at h
  | cons p ps ih =>
    intro k seen e h
    rw [procPages_cons] at h
    rcases List.mem_append.mp h with h1 | h2
    · have := procLines_page h1; omega
    · have := ih h2; omega

theorem pairwise_of_const_page {es : List OutlineEntry} {n : Nat}
    (h : ∀ e ∈ es, e.page = n) : List.Pairwise (fun a b => a.page ≤ b.page) es := by
  induction es with
  | nil => exact List.Pairwise.nil
  | cons x xs ih =>
    refine List.Pairwise.cons ?_ (ih (fun e he => h e (List.mem_cons_of_mem _ he)))
    intro b hb
    rw [h x (List.mem_cons_self _ _), h b (List.mem_cons_of_mem _ hb)]

theorem procPages_sorted :
    ∀ {ps : List Page} {k : Nat} {seen : List (String × Nat)},
      List.Pairwise (fun a b => a.page ≤ b.page) (procPages k ps seen) := by
  intro ps
  induction ps with
  | nil => intro k seen; exact List.Pairwise.nil
  | cons p ps ih =>
    intro k seen
    rw [procPages_cons]
    refine (List.pairwise_append).mpr ⟨?_, ih, ?_⟩
    · exact pairwise_of_const_page (fun e he => procLines_page he)
    · intro a ha b hb
      have h1 : a.page = k + 1 := procLines_page ha
      have h2 := procPages_page_ge hb
      omega

theorem procPages_dedup :
    ∀ {ps : List Page} {k : Nat} {seen : List (String × Nat)},
      List.Pairwise (fun a b => ¬(pyLower a.text = pyLower b.text ∧ a.page = b.page))
        (procPages k ps seen) := by
  intro ps
  induction ps with
  | nil => intro k seen; exact List.Pairwise.nil
  | cons p ps ih =>
    intro k seen
    rw [procPages_cons]
    refine (List.pairwise_append).mpr ⟨?_, ih, ?_⟩
    · exact procLines_distinct.imp (fun hab hcond => hab hcond.1)
    · intro a ha b hb hcontra
      have h1 : a.page = k + 1 := procLines_page ha
      have h2 := procPages_page_ge hb
      have h3 := hcontra.2
      omega

theorem procPages_filter_page :
    ∀ (ps : List Page) (k : Nat) (seen : List (String × Nat)) (m pn : Nat),
      m = k + pn + 1 →
      List.Sublist (((procPages k ps seen).filter (fun e => e.page == m)).map (fun e => e.text))
        ((ps.getD pn []).flatten.map lineText) := by
  intro ps
  induction ps with
  | nil =>
    intro k seen m pn hm
    simp [procPages]
  | cons p ps ih =>
    intro k seen m pn hm
    rw [procPages_cons, List.filter_append, List.map_append]
    cases pn with
    | zero =>
      have hself : ((procLines k p.flatten seen).1.filter (fun e => e.page == m)) =
          (procLines k p.flatten seen).1 := by
        refine List.filter_eq_self.mpr ?_
        intro e he
        have := procLines_page he
        simp [this, hm]
      have hnil : ((procPages (k + 1) ps (procLines k p.flatten seen).2).filter
          (fun e => e.page == m)) = [] := by
        refine List.filter_eq_nil_iff.mpr ?_
        intro e he
        have := procPages_page_ge he
        simp only [beq_iff_eq]
        omega
      rw [hself, hnil]
      simp only [List.map_nil, List.append_nil]
      exact procLines_sublist
    | succ j =>
      have hnil : ((procLines k p.flatten seen).1.filter (fun e => e.page == m)) = [] := by
        refine List.filter_eq_nil_iff.mpr ?_
        intro e he
        have := procLines_page he
        simp only [beq_iff_eq]
        omega
      rw [hnil]
      simp only [List.map_nil, List.nil_append]
      exact ih (k + 1) (procLines k p.flatten seen).2 m j (by omega)

/-! ## Outline claims -/

/-- Claim C1: for every document, the outline produced by `extract_outline`
never contains two entries with the same (lowercased text, page) pair; the same
heading text on a distinct page produces a separate entry ("CONCLUSION" on
pages 4 and 9 gives two H1 entries), while a case-insensitive repeat of a line
on the same page is suppressed ("CONCLUSION"/"Conclusion" on page 4 gives one
entry). -/
theorem extract_outline_dedup :
    (∀ doc : List Page,
      List.Pairwise (fun a b => ¬(pyLower a.text = pyLower b.text ∧ a.page = b.page))
        (extract_outline doc)) ∧
    extract_outline docConclTwoPages =
      [⟨"H1", "CONCLUSION", 4⟩, ⟨"H1", "CONCLUSION", 9⟩] ∧
    extract_outline docConclSamePage = [⟨"H1", "CONCLUSION", 4⟩] :=
  ⟨fun _ => procPages_dedup, by decide, by decide⟩

/-- Claim C3: for every document, the outline returned by `extract_outline` has
non-decreasing page numbers, and for every page index the entries attributed to
that page appear in exactly the block/line order yielded by the adapter (their
texts form a sublist of the page's line texts in order); the outline is built
in one pass and never re-sorted. -/
theorem extract_outline_order (doc : List Page) :
    List.Pairwise (fun a b => a.page ≤ b.page) (extract_outline doc) ∧
    ∀ pn : Nat,
      List.Sublist
        (((extract_outline doc).filter (fun e => e.page == pn + 1)).map (fun e => e.text))
        ((doc.getD pn []).flatten.map lineText) := by
  constructor
  · exact procPages_sorted
  · intro pn
    exact procPages_filter_page doc 0 [] (pn + 1) pn (by omega)

/-! ## Order lemmas on title-candidate sort keys -/

theorem candLe_refl (a : Cand) : candLe a a := Or.inr ⟨rfl, le_refl _⟩

theorem candLe_trans {a b c : Cand} (h1 : candLe a b) (h2 : candLe b c) : candLe a c := by
  unfold candLe at h1 h2 ⊢
  rcases h1 with h1 | ⟨e1, p1⟩ <;> rcases h2 with h2 | ⟨e2, p2⟩
  · exact Or.inl (lt_trans h2 h1)
  · exact Or.inl (by rw [← e2]; exact h1)
  · exact Or.inl (by rw [e1]; exact h2)
  · exact Or.inr ⟨e1.trans e2, le_trans p1 p2⟩

theorem candLe_of_candLe_of_candLt {a b c : Cand} (h1 : candLe a b) (h2 : candLt b c) :
    candLe a c := by
  unfold candLe at h1 ⊢
  unfold candLt at h2
  rcases h1 with h1 | ⟨e1, p1⟩ <;> rcases h2 with h2 | ⟨e2, p2⟩
  · exact Or.inl (lt_trans h2 h1)
  · exact Or.inl (by rw [← e2]; exact h1)
  · exact Or.inl (by rw [e1]; exact h2)
  · exact Or.inr ⟨e1.trans e2, le_trans p1 (le_of_lt p2)⟩

theorem candLt_of_candLe_of_candLt {a b c : Cand} (h1 : candLe a b) (h2 : candLt b c) :
    candLt a c := by
  unfold candLe at h1
  unfold candLt at h2 ⊢
  rcases h1 with h1 | ⟨e1, p1⟩ <;> rcases h2 with h2 | ⟨e2, p2⟩
  · exact Or.inl (lt_trans h2 h1)
  · exact Or.inl (by rw [← e2]; exact h1)
  · exact Or.inl (by rw [e1]; exact h2)
  · exact Or.inr ⟨e1.trans e2, lt_of_le_of_lt p1 p2⟩

theorem not_candLt_iff {a b : Cand} : ¬candLt a b ↔ candLe b a := by
  unfold candLt candLe
  constructor
  · intro h
    rcases lt_trichotomy a.size b.size with hlt | heq | hgt
    · exact Or.inl hlt
    · refine Or.inr ⟨heq.symm, ?_⟩
      by_contra hp
      exact h (Or.inr ⟨heq, by omega⟩)
    · exact absurd (Or.inl hgt) h
  · intro h hlt
    rcases h with h1 | ⟨he, hp⟩
    · rcases hlt with h2 | ⟨he2, _⟩
      · exact absurd h1 (by linarith)
      · rw [he2] at h1; exact absurd h1 (lt_irrefl _)
    · rcases hlt with h2 | ⟨he2, hp2⟩
      · rw [he] at h2; exact absurd h2 (lt_irrefl _)
      · omega

/-! ## The head of the stable sort is the first key-minimal candidate -/

theorem firstMinCand_le : ∀ (l : List Cand) (b : Cand), candLe (firstMinCand b l) b := by
  intro l
  induction l with
  | nil => intro b; exact candLe_refl b
  | cons x xs ih =>
    intro b
    simp only [firstMinCand]
    by_cases h : candLt x b
    · rw [if_pos h]; exact candLe_of_candLe_of_candLt (ih x) h
    · rw [if_neg h]; exact ih b

theorem firstMinCand_min : ∀ (l : List Cand) (b y : Cand), y ∈ l →
    candLe (firstMinCand b l) y := by
  intro l
  induction l with
  | nil => intro b y h; cases h
  | cons x xs ih =>
    intro b y hy
    simp only [firstMinCand]
    by_cases h : candLt x b
    · rw [if_pos h]
      rcases List.mem_cons.mp hy with rfl | hy'
      · exact firstMinCand_le xs y
      · exact ih x y hy'
    · rw [if_neg h]
      rcases List.mem_cons.mp hy with rfl | hy'
      · exact candLe_trans (firstMinCand_le xs b) (not_candLt_iff.mp h)
      · exact ih b y hy'

theorem firstMinCand_mem : ∀ (l : List Cand) (b : Cand),
    firstMinCand b l = b ∨ firstMinCand b l ∈ l := by
  intro l
  induction l with
  | nil => intro b; exact Or.inl rfl
  | cons x xs ih =>
    intro b
    simp only [firstMinCand]
    by_cases h : candLt x b
    · rw [if_pos h]
      rcases ih x with he | hm
      · exact Or.inr (by rw [he]; exact List.mem_cons_self x xs)
      · exact Or.inr (List.mem_cons_of_mem _ hm)
    · rw [if_neg h]
      rcases ih b with he | hm
      · exact Or.inl he
      · exact Or.inr (List.mem_cons_of_mem _ hm)

theorem firstMinCand_eq_self : ∀ (l : List Cand) (b : Cand), (∀ y ∈ l, ¬candLt y b) →
    firstMinCand b l = b := by
  intro l
  induction l with
  | nil => intro b _; rfl
  | cons x xs ih =>
    intro b h
    simp only [firstMinCand]
    rw [if_neg (h x (List.mem_cons_self _ _))]
    exact ih b (fun y hy => h y (List.mem_cons_of_mem _ hy))

theorem firstMinCand_absorb : ∀ (zs : List Cand) (z b : Cand),
    candLt (firstMinCand z zs) b → candLe b z → firstMinCand b zs = firstMinCand z zs := by
  intro zs
  induction zs with
  | nil =>
    intro z b h1 h2
    exact absurd h1 (not_candLt_iff.mpr h2)
  | cons w ws ih =>
    intro z b h1 h2
    simp only [firstMinCand] at h1 ⊢
    by_cases hwz : candLt w z
    · rw [if_pos hwz] at h1 ⊢
      by_cases hwb : candLt w b
      · rw [if_pos hwb]
      · rw [if_neg hwb]
        exact ih w b h1 (not_candLt_iff.mp hwb)
    · rw [if_neg hwz] at h1 ⊢
      have hzw : candLe z w := not_candLt_iff.mp hwz
      have hbw : candLe b w := candLe_trans h2 hzw
      rw [if_neg (not_candLt_iff.mpr hbw)]
      exact ih z b h1 h2

theorem sortCands_head : ∀ (l : List Cand) (b : Cand),
    (sortCands (b :: l)).head? = some (firstMinCand b l) := by
  intro l
  induction l with
  | nil => intro b; rfl
  | cons z zs ih =>
    intro b
    obtain ⟨t, ht⟩ : ∃ t, sortCands (z :: zs) = firstMinCand z zs :: t := by
      have h := ih z
      cases hs : sortCands (z :: zs) with
      | nil => rw [hs] at h; cases h
      | cons m t =>
        rw [hs] at h
        simp only [List.head?_cons, Option.some.injEq] at h
        exact ⟨t, by rw [h]⟩
    show (insertCand b (sortCands (z :: zs))).head? = some (firstMinCand b (z :: zs))
    rw [ht]
    simp only [insertCand, firstMinCand]
    by_cases hmb : candLt (firstMinCand z zs) b
    · rw [if_pos hmb]
      by_cases hzb : candLt z b
      · rw [if_pos hzb]; rfl
      · rw [if_neg hzb, firstMinCand_absorb zs z b hmb (not_candLt_iff.mp hzb)]
        rfl
    · rw [if_neg hmb]
      by_cases hzb : candLt z b
      · exact absurd (candLt_of_candLe_of_candLt (firstMinCand_le zs z) hzb) hmb
      · rw [if_neg hzb]
        have hbz : ∀ y ∈ zs, ¬candLt y b := by
          intro y hy
          exact not_candLt_iff.mpr
            (candLe_trans (not_candLt_iff.mp hmb) (firstMinCand_min zs z y hy))
        rw [firstMinCand_eq_self zs b hbz]
        rfl

theorem extract_title_eq_firstMin {doc : List Page} {c : Cand} {cs : List Cand}
    (h : titleCandidates doc = c :: cs) : extract_title doc = (firstMinCand c cs).text := by
  unfold extract_title
  rw [h]
  have hh := sortCands_head cs c
  cases hs : sortCands (c :: cs) with
  | nil => rw [hs] at hh; cases hh
  | cons m t =>
    rw [hs] at hh
    simp only [List.head?_cons, Option.some.injEq] at hh
    rw [hh]

/-! ## Membership characterization of the title candidates -/

theorem mem_withIdx {α : Type _} : ∀ {l : List α} {k : Nat} {n : Nat} {a : α},
    (n, a) ∈ withIdx k l ↔ ∃ j, n = k + j ∧ l.get? j = some a := by
  intro l
  induction l with
  | nil => intro k n a; simp [withIdx]
  | cons x xs ih =>
    intro k n a
    simp only [withIdx, List.mem_cons, ih, Prod.mk.injEq]
    constructor
    · rintro (⟨rfl, rfl⟩ | ⟨j, hj, hg⟩)
      · exact ⟨0, by omega, rfl⟩
      · exact ⟨j + 1, by omega, hg⟩
    · rintro ⟨j, hj, hg⟩
      cases j with
      | zero =>
        left
        simp only [List.get?_cons_zero, Option.some.injEq] at hg
        exact ⟨by omega, hg.symm⟩
      | succ j =>
        right
        exact ⟨j, by omega, hg⟩

theorem spanCand_eq_some {pn : Nat} {sp : Span} {c : Cand} :
    spanCand pn sp = some c ↔
      (10 < (pyStrip sp.text).length ∧ (pyStrip sp.text).length < 150 ∧
        pyIsLower (pyStrip sp.text) = false) ∧ c = ⟨pyStrip sp.text, sp.size, pn⟩ := by
  unfold spanCand
  by_cases hcond : 10 < (pyStrip sp.text).length ∧ (pyStrip sp.text).length < 150 ∧
      pyIsLower (pyStrip sp.text) = false
  · rw [if_pos hcond]
    constructor
    · intro h
      injection h with h
      exact ⟨hcond, h.symm⟩
    · intro h
      rw [h.2]
  · rw [if_neg hcond]
    constructor
    · intro h; exact Option.noConfusion h
    · intro h; exact absurd h.1 hcond

theorem mem_titleCandidates {doc : List Page} {c : Cand} :
    c ∈ titleCandidates doc ↔ TitleCandidateSpec doc c := by
  unfold titleCandidates TitleCandidateSpec
  rw [List.mem_flatMap]
  constructor
  · rintro ⟨⟨pn, pg⟩, hpr, hc⟩
    rw [mem_withIdx] at hpr
    obtain ⟨j, hj, hget⟩ := hpr
    have hj' : j = pn := by omega
    subst hj'
    have hjlt : j < (doc.take 2).length := (List.get?_eq_some.mp hget).1
    rw [List.length_take] at hjlt
    have hj2 : j < 2 := lt_of_lt_of_le hjlt (min_le_left _ _)
    rw [List.get?_take hj2] at hget
    unfold pageCands at hc
    obtain ⟨b, hb, hc2⟩ := List.mem_flatMap.mp hc
    obtain ⟨l, hl, hc3⟩ := List.mem_flatMap.mp hc2
    obtain ⟨sp, hsp, hsc⟩ := List.mem_filterMap.mp hc3
    obtain ⟨⟨h10, h150, hlow⟩, hceq⟩ := spanCand_eq_some.mp hsc
    exact ⟨j, pg, sp, hj2, hget, ⟨b, hb, l, hl, hsp⟩, h10, h150, hlow, hceq⟩
  · rintro ⟨pn, pg, sp, hpn, hget, ⟨b, hb, l, hl, hsp⟩, h10, h150, hlow, rfl⟩
    refine ⟨(pn, pg), ?_, ?_⟩
    · rw [mem_withIdx]
      exact ⟨pn, by omega, by rw [List.get?_take hpn]; exact hget⟩
    · unfold pageCands
      refine List.mem_flatMap.mpr ⟨b, hb, List.mem_flatMap.mpr ⟨l, hl, ?_⟩⟩
      exact List.mem_filterMap.mpr ⟨sp, hsp, spanCand_eq_some.mpr ⟨⟨h10, h150, hlow⟩, rfl⟩⟩

/-! ## Title inferrer claims -/

/-- Claim C2: `extract_title` collects exactly the spans of the first
`min(2, page_count)` pages whose trimmed text length is strictly between 10 and
150 and which are not entirely lowercase (the membership characterization
below); it returns the text of a candidate of maximal font size whose page
index is smallest among the maximal-size candidates; and it returns `""` when
no candidate exists. -/
theorem extract_title_spec (doc : List Page) :
    (titleCandidates doc = [] → extract_title doc = "") ∧
    (∀ c : Cand, c ∈ titleCandidates doc ↔ TitleCandidateSpec doc c) ∧
    (titleCandidates doc ≠ [] → ∃ c ∈ titleCandidates doc,
      extract_title doc = c.text ∧
      (∀ c' ∈ titleCandidates doc, c'.size ≤ c.size) ∧
      (∀ c' ∈ titleCandidates doc, c'.size = c.size → c.page ≤ c'.page)) := by
  refine ⟨?_, fun c => mem_titleCandidates, ?_⟩
  · intro h
    unfold extract_title
    rw [h]
    rfl
  · intro hne
    obtain ⟨c, cs, hcc⟩ : ∃ c cs, titleCandidates doc = c :: cs := by
      cases h : titleCandidates doc with
      | nil => exact absurd h hne
      | cons c cs => exact ⟨c, cs, rfl⟩
    have hmin : ∀ c' ∈ c :: cs, candLe (firstMinCand c cs) c' := by
      intro c' hc'
      rcases List.mem_cons.mp hc' with rfl | h'
      · exact firstMinCand_le cs c'
      · exact firstMinCand_min cs c c' h'
    refine ⟨firstMinCand c cs, ?_, extract_title_eq_firstMin hcc, ?_, ?_⟩
    · rw [hcc]
      rcases firstMinCand_mem cs c with he | hm
      · rw [he]; exact List.mem_cons_self _ _
      · exact List.mem_cons_of_mem _ hm
    · intro c' hc'
      rw [hcc] at hc'
      rcases hmin c' hc' with h | ⟨he, _⟩
      · exact le_of_lt h
      · exact le_of_eq he.symm
    · intro c' hc' hsz
      rw [hcc] at hc'
      rcases hmin c' hc' with h | ⟨_, hp⟩
      · rw [hsz] at h; exact absurd h (lt_irrefl _)
      · exact hp

/-- Witness for `extract_title_spec`: on `docTitleDemo` the selected candidate
is the 14pt span, which is maximal in size. -/
theorem extract_title_spec_witness :
    ∃ c ∈ titleCandidates docTitleDemo,
      extract_title docTitleDemo = c.text ∧
      (∀ c' ∈ titleCandidates docTitleDemo, c'.size ≤ c.size) ∧
      (∀ c' ∈ titleCandidates docTitleDemo, c'.size = c.size → c.page ≤ c'.page) :=
  (extract_title_spec docTitleDemo).2.2 (by decide)

/-- Claim C9: when several title candidates share the same maximal font size
and page index, `extract_title` returns the candidate encountered first in
reading order — the sort is stable, so the returned title is the text of the
left-fold strict minimum (`firstMinCand`, which keeps the earlier candidate on
equal keys) of the candidate list, a deterministic function of the span
sequence of the first two pages. -/
theorem extract_title_stable (doc : List Page) (c : Cand) (cs : List Cand)
    (h : titleCandidates doc = c :: cs) :
    extract_title doc = (firstMinCand c cs).text :=
  extract_title_eq_firstMin h

/-- Witness for `extract_title_stable`: two candidates with equal font size on
the same page; the first one in reading order wins. -/
theorem extract_title_stable_witness :
    extract_title docTieDemo = "First Candidate Title" := by
  have h := extract_title_stable docTieDemo
    ⟨"First Candidate Title", 12, 0⟩ [⟨"Second Candidate Title", 12, 0⟩] (by decide)
  rw [h]
  decide

/-- Claim C10: a span whose trimmed text contains no cased characters passes
`extract_title`'s "not entirely lowercase" filter (`str.islower` is false for
uncased strings), so any such span of trimmed length 11 to 149 on the first two
pages is a title candidate — and such a span can be returned as the title, as
on `docUncasedDemo`. -/
theorem extract_title_uncased :
    (∀ (doc : List Page) (pn : Nat) (page : Page) (sp : Span),
      pn < 2 → doc.get? pn = some page → SpanInPage sp page →
      (∀ ch ∈ (pyStrip sp.text).data, isCasedCh ch = false) →
      10 < (pyStrip sp.text).length → (pyStrip sp.text).length < 150 →
      (⟨pyStrip sp.text, sp.size, pn⟩ : Cand) ∈ titleCandidates doc) ∧
    extract_title docUncasedDemo = "123-456-7890!" := by
  refine ⟨?_, by decide⟩
  intro doc pn page sp hpn hget hsp hnc h10 h150
  have hlow : pyIsLower (pyStrip sp.text) = false := by
    have hany : (pyStrip sp.text).data.any isCasedCh = false := by
      rw [List.any_eq_false]
      intro x hx
      simp [hnc x hx]
    simp [pyIsLower, hany]
  exact mem_titleCandidates.mpr ⟨pn, page, sp, hpn, hget, hsp, h10, h150, hlow, rfl⟩

/-- Witness for `extract_title_uncased` at the uncased span "123-456-7890!". -/
theorem extract_title_uncased_witness :
    (⟨pyStrip "123-456-7890!", (12 : ℚ), 0⟩ : Cand) ∈ titleCandidates docUncasedDemo :=
  extract_title_uncased.1 docUncasedDemo 0 (onePage "123-456-7890!" 12)
    ⟨"123-456-7890!", 12⟩ (by decide) (by decide) (by decide) (by decide) (by decide)
    (by decide)

/-! ## Document processor claim -/

/-- Claim C8: for every document path, if the fallible acquisition step raises,
`extract_structure` catches it and returns a degraded result whose title is the
file name's stem (extension removed) and whose outline is empty; on success it
returns the extracted title and outline (both total functions in this model, so
no failure propagates past this boundary); and `pathStem "broken.pdf" =
"broken"`. -/
theorem extract_structure_error_boundary :
    (∀ (opened : Except String (List Page)) (name : String),
      (∀ msg, opened = .error msg →
        extract_structure opened name = ⟨pathStem name, []⟩) ∧
      (∀ doc, opened = .ok doc →
        extract_structure opened name = ⟨extract_title doc, extract_outline doc⟩)) ∧
    pathStem "broken.pdf" = "broken" := by
  refine ⟨?_, by decide⟩
  intro opened name
  constructor
  · rintro msg rfl; rfl
  · rintro doc rfl; rfl

/-- Witness for `extract_structure_error_boundary`: an unreadable document
named "broken.pdf" degrades to `{title: "broken", outline: []}`. -/
theorem extract_structure_error_boundary_witness :
    extract_structure (.error "unreadable") "broken.pdf" = ⟨"broken", []⟩ := by
  rw [(extract_structure_error_boundary.1 (.error "unreadable") "broken.pdf").1
    "unreadable" rfl]
  decide

end PDFExtract
